import Mathlib

/-!
Verification of the prodg translation pipeline (`src/translate_and_post.py`)
against its natural-language specification.

The Python source is shallowly embedded: pure fragments become Lean
functions, the stateful chunk-accumulation loop becomes explicit state
passing, and every call to the external translation service is an oracle
parameter (`tr`, `cleanup`, `attempts`), so that theorems quantify over
every possible service behaviour.
-/

/-- Chunk separator string (`SEPARATOR`, translate_and_post.py line 239). -/
def SEPARATOR : String := "\n<!--BLOCK_SEP-->\n"

/-- Character budget of one translation chunk (line 246 uses the literal 3000).
The chunk-building code is embedded with the budget as a parameter so that
properties can be stated for every budget; the pipeline instantiates it
at `CHUNK_BUDGET`. -/
def CHUNK_BUDGET : Nat := 3000

/-- One element of the `chunks` list built at lines 245-255: a half-open
block range `[start, stop)` together with the member blocks' inner HTML
joined by `SEPARATOR`. -/
structure Chunk where
  start : Nat
  stop : Nat
  combined : String
deriving DecidableEq, Repr

/-- Loop state of the chunk-accumulation loop (lines 240-243):
`chunks` accumulated so far, `cur` the blocks of the open chunk
(`current_chunk`), `curSize` their total character count (`current_size`),
and `startIdx` the index of the first block of the open chunk. -/
structure ChunkState where
  chunks : List Chunk
  cur : List String
  curSize : Nat
  startIdx : Nat
deriving DecidableEq, Repr

/-- One iteration of the loop body at lines 245-252: if adding block `i`
would push the open chunk past the budget and the open chunk is non-empty,
close it; then append block `i` to the open chunk. -/
def chunkStepAt (budget i : Nat) (st : ChunkState) (innerHtml : String) : ChunkState :=
  let st' :=
    if budget < st.curSize + innerHtml.length ∧ st.cur ≠ [] then
      { chunks := st.chunks ++ [⟨st.startIdx, i, String.intercalate SEPARATOR st.cur⟩],
        cur := [], curSize := 0, startIdx := i }
    else st
  { st' with cur := st'.cur ++ [innerHtml], curSize := st'.curSize + innerHtml.length }

/-- The whole `for i, (block, inner_html) in enumerate(...)` loop, run from
index `i` over the remaining blocks. -/
def chunkGo (budget : Nat) (i : Nat) (st : ChunkState) : List String → ChunkState
  | [] => st
  | b :: rest => chunkGo budget (i + 1) (chunkStepAt budget i st b) rest

/-- Chunk construction, lines 240-255: run the loop from the empty state and
flush the final open chunk (lines 254-255) with `stop = len(translatable_blocks)`. -/
def buildChunks (budget : Nat) (blocks : List String) : List Chunk :=
  let st := chunkGo budget 0 ⟨[], [], 0, 0⟩ blocks
  if st.cur ≠ [] then
    st.chunks ++ [⟨st.startIdx, blocks.length, String.intercalate SEPARATOR st.cur⟩]
  else st.chunks

/-- The blocks a chunk's range addresses: `blocks[c.start : c.stop]`. -/
def sliceBlocks (blocks : List String) (c : Chunk) : List String :=
  (blocks.take c.stop).drop c.start

/-- Well-formedness of a chunk list relative to the block list: the ranges
chain contiguously from `lo` to `hi`, stay inside the block list, and each
chunk's `combined` text is exactly its member blocks joined by `SEPARATOR`. -/
def ChunksGood (blocks : List String) : Nat → List Chunk → Nat → Prop
  | lo, [], hi => lo = hi
  | lo, c :: cs, hi =>
    c.start = lo ∧ lo ≤ c.stop ∧ c.stop ≤ blocks.length ∧
    c.combined = String.intercalate SEPARATOR (sliceBlocks blocks c) ∧
    ChunksGood blocks c.stop cs hi

/-- Invariant carried through the chunk-accumulation loop after the first
`i` blocks were processed. -/
def ChunkInv (blocks : List String) (i : Nat) (st : ChunkState) : Prop :=
  st.startIdx ≤ i ∧ i ≤ blocks.length ∧
  st.cur = (blocks.take i).drop st.startIdx ∧
  st.curSize = (st.cur.map String.length).sum ∧
  ChunksGood blocks 0 st.chunks st.startIdx

/-- Splitting a chunk's translated text on the separator marker
(`translated.split('<!--BLOCK_SEP-->')`, line 268). -/
def splitParts (translated : String) : List String :=
  translated.splitOn "<!--BLOCK_SEP-->"

/-- Per-chunk recovery of lines 260-282: an empty translation result keeps the
original blocks of the chunk's range (lines 262-265); otherwise the result is
split on the separator and, on a segment-count mismatch, either truncated to
the expected count (line 276) or padded with empty strings (lines 279-282). -/
def recoverChunk (blocks : List String) (c : Chunk) (translated : String) : List String :=
  if translated = "" then sliceBlocks blocks c
  else
    let parts := splitParts translated
    let expected := c.stop - c.start
    if parts.length = expected then parts.map String.trim
    else if expected ≤ parts.length then (parts.take expected).map String.trim
    else parts.map String.trim ++ List.replicate (expected - parts.length) ""

/-- The per-chunk translation loop of lines 257-283, with the external service
modelled by the oracle `tr` (the result of `_translate_chunk` on the chunk's
combined text; `""` models its failure return). Produces the
`translated_blocks` list. -/
def translateBlocks (tr : String → String) (blocks : List String) : List String :=
  (buildChunks CHUNK_BUDGET blocks).foldl
    (fun acc c => acc ++ recoverChunk blocks c (tr c.combined)) []

/-- Insertion step of lines 292-298: block `i` of the document receives the
translated content when it is non-empty and present, and otherwise keeps its
original (pre-translation) inner markup. -/
def finalBlockContents (tr : String → String) (blocks : List String) : List String :=
  (List.range blocks.length).map (fun i =>
    let t := (translateBlocks tr blocks).getD i ""
    if t ≠ "" then t else blocks.getD i "")

/-- Test for a codepoint in the source script's Unicode ranges: the regex
character class `[぀-ゟ゠-ヿ]` of `_has_japanese`
(line 360): hiragana or katakana. -/
def isJapaneseChar (c : Char) : Bool :=
  (0x3040 ≤ c.toNat ∧ c.toNat ≤ 0x309f) ∨ (0x30a0 ≤ c.toNat ∧ c.toNat ≤ 0x30ff)

/-- Tag-stripping state machine over the character list: characters between
`<` and `>` are markup and dropped, the rest kept. -/
def stripTagsAux : Bool → List Char → List Char
  | _, [] => []
  | _, '<' :: rest => stripTagsAux true rest
  | _, '>' :: rest => stripTagsAux false rest
  | true, _ :: rest => stripTagsAux true rest
  | false, c :: rest => c :: stripTagsAux false rest

/-- Models `BeautifulSoup(text, 'lxml').get_text()` of line 361 on
tag-structured input: the visible text with markup tags removed. -/
def stripTags (s : String) : String :=
  ⟨stripTagsAux false s.data⟩

/-- Count of source-script codepoints in a string
(`len(japanese_pattern.findall(plain_text))`, lines 362-363). -/
def countJapanese (s : String) : Nat :=
  (s.data.filter isJapaneseChar).length

/-- The residual-language detector `_has_japanese` (lines 358-363): strip
tags, count hiragana/katakana codepoints, report `True` when more than 5
remain. -/
def hasJapanese (text : String) : Bool :=
  5 < countJapanese (stripTags text)

/-- Step 9 of `translate_and_edit_content` (lines 309-312): when the residual
detector fires on the reassembled document, one repair pass `_cleanup_japanese`
(modelled by the oracle `cleanup`) is applied and its result is returned
without any further check inside this function. -/
def applyResidualRepair (cleanup : String → String) (resultHtml : String) : String :=
  if hasJapanese resultHtml then cleanup resultHtml else resultHtml

/-- Validation and final insertion of the body translation (lines 285-303):
after all chunk calls and recovery, when fewer than 30% of the translatable
blocks carry non-empty translated content the whole body translation fails
(lines 286-290; the code returns `""`, modelled as `none`); otherwise the
final per-block contents are produced. The Python float comparison
`len(non_empty) < total_blocks * 0.3` coincides with the exact rational
comparison `10 * len(non_empty) < 3 * total_blocks` for every block count
below 2^50, so the latter embeds it. -/
def translateAndEditBody (tr : String → String) (blocks : List String) :
    Option (List String) :=
  let translated := translateBlocks tr blocks
  let nonEmpty := translated.filter (fun b => b.trim ≠ "")
  if 10 * nonEmpty.length < 3 * blocks.length then none
  else some (finalBlockContents tr blocks)

/-- Outcomes of the per-article collaborator calls inside `process_article`
(lines 683-766), modelled as oracles: `wpDup` is the result of
`is_already_posted_on_wp`, `fetched` of `fetch_full_content` (`none` =
scraping failed), `titleKo` of `translate_and_edit_title` (`""` = failure),
`contentKo` of `translate_and_edit_content` (`""` = failure), and
`publishOk` of `post_to_wordpress`. -/
structure ProcOracles where
  wpDup : Bool
  fetched : Option String
  titleKo : String
  contentKo : String
  publishOk : Bool
deriving DecidableEq, Repr

/-- Decision structure of `process_article` (lines 683-766): the WordPress
duplicate pre-check records the link locally and skips (lines 690-694);
scraping, title translation and body translation failures skip without
recording; the final residual-language safety net at lines 716-719 skips
without recording; a successful publish returns `True` and appends the link
to the ledger unless the force flag is set (lines 760-766). Returns the
success flag and the updated ledger. -/
def processArticle (forceUpdate : Bool) (o : ProcOracles) (link : String)
    (posted : List String) : Bool × List String :=
  if forceUpdate = false ∧ o.wpDup = true then
    (false, if link ∈ posted then posted else posted ++ [link])
  else
    match o.fetched with
    | none => (false, posted)
    | some _ =>
      if o.titleKo = "" then (false, posted)
      else if o.contentKo = "" then (false, posted)
      else if hasJapanese o.contentKo then (false, posted)
      else if o.publishOk then
        (true, if forceUpdate = false then posted ++ [link] else posted)
      else (false, posted)

/-- One RSS feed entry as used by `fetch_rss_feed` (lines 438-451): title,
canonical link, and publication date (modelled as a sortable timestamp). -/
structure FeedEntry where
  title : String
  link : String
  date : Nat
deriving DecidableEq, Repr

/-- Daily cap on processed articles (`DAILY_LIMIT`, line 41). -/
def DAILY_LIMIT : Nat := 10

/-- Sort key of line 453: newest first (`reverse=True` on the date). -/
def dateDesc (a b : FeedEntry) : Bool :=
  b.date ≤ a.date

/-- Candidate selection of `fetch_rss_feed` (lines 428-457): drop entries
already in the ledger unless the force flag is set, sort the remainder
newest-first (Python's stable sort embedded as the stable `mergeSort`),
and keep at most `DAILY_LIMIT` entries. -/
def fetchRssFeed (forceUpdate : Bool) (posted : List String)
    (entries : List FeedEntry) : List FeedEntry :=
  let unposted := entries.filter (fun e => ¬(forceUpdate = false ∧ e.link ∈ posted))
  (unposted.mergeSort dateDesc).take DAILY_LIMIT

/-- Retry cap of `_call_api` (`max_retries = 3`, line 85). -/
def MAX_RETRIES : Nat := 3

/-- The attempt loop of `_call_api` (lines 86-116): attempt `i` yields the
oracle text `attempts i` (`""` modelling an exception or an empty candidate
list); the first non-empty extracted text is returned, and after the last
attempt the failure value `""` is returned (line 116). -/
def callApiLoop (attempts : Nat → String) : Nat → Nat → String
  | _, 0 => ""
  | i, fuel + 1 => if attempts i ≠ "" then attempts i else callApiLoop attempts (i + 1) fuel

/-- `_call_api` under the per-attempt oracle `attempts`. -/
def callApi (attempts : Nat → String) : String :=
  callApiLoop attempts 0 MAX_RETRIES

/-- The batch loop of `run` (lines 795-800): articles are processed strictly
in order against the shared ledger, counting successes; there is no
cross-article abort state. Each article carries its own collaborator
oracles. -/
def runBatch (force : Bool) (items : List (ProcOracles × String))
    (posted : List String) : Nat × List String :=
  items.foldl
    (fun acc it =>
      let r := processArticle force it.1 it.2 acc.2
      (acc.1 + (if r.1 then 1 else 0), r.2))
    (0, posted)

theorem chunksGood_append {blocks : List String} :
    ∀ {cs cs' : List Chunk} {lo mid hi : Nat},
    ChunksGood blocks lo cs mid → ChunksGood blocks mid cs' hi →
    ChunksGood blocks lo (cs ++ cs') hi := by
  intro cs
  induction cs with
  | nil =>
    intro cs' lo mid hi h1 h2
    simp only [ChunksGood] at h1
    simpa [h1] using h2
  | cons c cs ih =>
    intro cs' lo mid hi h1 h2
    obtain ⟨hs, hle, hlen, hcomb, hrest⟩ := h1
    exact ⟨hs, hle, hlen, hcomb, ih hrest h2⟩

theorem chunksGood_le {blocks : List String} :
    ∀ {cs : List Chunk} {lo hi : Nat}, ChunksGood blocks lo cs hi → lo ≤ hi := by
  intro cs
  induction cs with
  | nil => intro lo hi h; simp only [ChunksGood] at h; omega
  | cons c cs ih =>
    intro lo hi h
    obtain ⟨hs, hle, _, _, hrest⟩ := h
    exact le_trans hle (ih hrest)

theorem take_drop_of_drop_cons {α : Type} :
    ∀ (l : List α) (i : Nat) (b : α) (rest : List α), l.drop i = b :: rest →
    l.take (i + 1) = l.take i ++ [b] ∧ l.drop (i + 1) = rest ∧ i < l.length := by
  intro l
  induction l with
  | nil => intro i b rest h; simp at h
  | cons x xs ih =>
    intro i b rest h
    cases i with
    | zero =>
      simp only [List.drop] at h
      cases h
      simp
    | succ j =>
      simp only [List.drop] at h
      obtain ⟨h1, h2, h3⟩ := ih j b rest h
      refine ⟨?_, ?_, ?_⟩
      · simp [List.take, h1]
      · simpa [List.drop] using h2
      · simpa using Nat.succ_lt_succ h3

theorem length_take_of_le {α : Type} {l : List α} {i : Nat} (h : i ≤ l.length) :
    (l.take i).length = i := by
  simp [List.length_take, Nat.min_eq_left h]

theorem chunkInv_step {budget i : Nat} {blocks : List String} {st : ChunkState} {b : String}
    (hinv : ChunkInv blocks i st)
    (htake : blocks.take (i + 1) = blocks.take i ++ [b]) (hlt : i < blocks.length) :
    ChunkInv blocks (i + 1) (chunkStepAt budget i st b) := by
  obtain ⟨hstart, hile, hcur, hsize, hgood⟩ := hinv
  have htklen : (blocks.take i).length = i := length_take_of_le (le_of_lt hlt)
  unfold chunkStepAt
  by_cases hcond : budget < st.curSize + b.length ∧ st.cur ≠ []
  · simp only [if_pos hcond]
    unfold ChunkInv
    dsimp only
    refine ⟨by omega, hlt, ?_, by simp, ?_⟩
    · rw [htake, List.drop_append_of_le_length (by omega)]
      rw [List.drop_eq_nil_iff.mpr (by omega)]
    · refine chunksGood_append hgood ?_
      refine ⟨rfl, hstart, le_of_lt hlt, ?_, rfl⟩
      simp only [sliceBlocks]
      rw [← hcur]
  · simp only [if_neg hcond]
    unfold ChunkInv
    dsimp only
    refine ⟨by omega, hlt, ?_, by simp [hsize], hgood⟩
    rw [htake, List.drop_append_of_le_length (by omega), hcur]

theorem chunkGo_inv {budget : Nat} {blocks : List String} :
    ∀ (rest : List String) (i : Nat) (st : ChunkState),
    blocks.drop i = rest → ChunkInv blocks i st →
    ChunkInv blocks blocks.length (chunkGo budget i st rest) := by
  intro rest
  induction rest with
  | nil =>
    intro i st hdrop hinv
    have hlen : blocks.length ≤ i := List.drop_eq_nil_iff.mp hdrop
    have : i = blocks.length := le_antisymm hinv.2.1 hlen
    simpa [chunkGo, ← this] using hinv
  | cons b rest ih =>
    intro i st hdrop hinv
    obtain ⟨htake, hdrop', hlt⟩ := take_drop_of_drop_cons blocks i b rest hdrop
    exact ih (i + 1) _ hdrop' (chunkInv_step hinv htake hlt)

theorem buildChunks_good (budget : Nat) (blocks : List String) :
    ChunksGood blocks 0 (buildChunks budget blocks) blocks.length := by
  have hinv : ChunkInv blocks blocks.length (chunkGo budget 0 ⟨[], [], 0, 0⟩ blocks) :=
    chunkGo_inv blocks 0 ⟨[], [], 0, 0⟩ (by simp) (by simp [ChunkInv, ChunksGood])
  obtain ⟨hstart, _, hcur, _, hgood⟩ := hinv
  unfold buildChunks
  by_cases hne : (chunkGo budget 0 ⟨[], [], 0, 0⟩ blocks).cur ≠ []
  · simp only [if_pos hne]
    refine chunksGood_append hgood ?_
    refine ⟨rfl, hstart, le_refl _, ?_, rfl⟩
    simp only [sliceBlocks]
    rw [← hcur]
  · simp only [if_neg hne]
    push_neg at hne
    rw [hne] at hcur
    have : blocks.length ≤ (chunkGo budget 0 ⟨[], [], 0, 0⟩ blocks).startIdx := by
      have := hcur.symm
      simp only [List.take_length] at this
      exact List.drop_eq_nil_iff.mp this
    have heq : (chunkGo budget 0 ⟨[], [], 0, 0⟩ blocks).startIdx = blocks.length :=
      le_antisymm hstart this
    rwa [heq] at hgood

theorem slice_glue {α : Type} {b : List α} {lo stop hi : Nat}
    (h1 : lo ≤ stop) (h2 : stop ≤ b.length) (h3 : stop ≤ hi) :
    (b.take stop).drop lo ++ (b.take hi).drop stop = (b.take hi).drop lo := by
  have htk : (b.take hi).take stop = b.take stop := by
    rw [List.take_take, Nat.min_eq_left h3]
  conv_rhs => rw [← List.take_append_drop stop (b.take hi)]
  rw [htk, List.drop_append_of_le_length (by rw [length_take_of_le h2]; exact h1)]

theorem chunksGood_join {blocks : List String} :
    ∀ {cs : List Chunk} {lo hi : Nat}, ChunksGood blocks lo cs hi →
    (cs.map (sliceBlocks blocks)).flatten = (blocks.take hi).drop lo := by
  intro cs
  induction cs with
  | nil =>
    intro lo hi h
    simp only [ChunksGood] at h
    subst h
    exact (List.drop_eq_nil_iff.mpr (by simp [List.length_take])).symm
  | cons c cs ih =>
    intro lo hi h
    obtain ⟨hs, hle, hlen, _, hrest⟩ := h
    have hstop : c.stop ≤ hi := chunksGood_le hrest
    simp only [List.map_cons, List.flatten_cons, ih hrest, sliceBlocks, hs]
    exact slice_glue hle hlen hstop

/-- C1: for every list of translatable blocks and every chunk budget, the
chunker's output has contiguous block ranges chaining from `0` to the block
count with no gaps or overlaps (`ChunksGood`, which also states that each
chunk's combined text is its member blocks joined by the separator), and
concatenating the chunks' block ranges in order reconstructs the exact
original block sequence with no block omitted or duplicated. -/
theorem c1_chunker_partitions_blocks (budget : Nat) (blocks : List String) :
    ChunksGood blocks 0 (buildChunks budget blocks) blocks.length ∧
    ((buildChunks budget blocks).map (sliceBlocks blocks)).flatten = blocks := by
  refine ⟨buildChunks_good budget blocks, ?_⟩
  rw [chunksGood_join (buildChunks_good budget blocks)]
  simp

theorem chunkGo_append {budget : Nat} :
    ∀ (xs ys : List String) (i : Nat) (st : ChunkState),
    chunkGo budget i st (xs ++ ys) = chunkGo budget (i + xs.length) (chunkGo budget i st xs) ys := by
  intro xs
  induction xs with
  | nil => intro ys i st; simp [chunkGo]
  | cons x xs ih =>
    intro ys i st
    have harith : i + 1 + xs.length = i + (xs.length + 1) := by omega
    simp only [List.cons_append, chunkGo, ih, List.length_cons, harith, List.append_eq]

theorem chunkStepAt_chunks (budget i : Nat) (st : ChunkState) (b : String) :
    (chunkStepAt budget i st b).chunks = st.chunks ∨
    (chunkStepAt budget i st b).chunks =
      st.chunks ++ [⟨st.startIdx, i, String.intercalate SEPARATOR st.cur⟩] := by
  unfold chunkStepAt
  by_cases hcond : budget < st.curSize + b.length ∧ st.cur ≠ []
  · rw [if_pos hcond]; right; rfl
  · rw [if_neg hcond]; left; rfl

theorem chunkGo_chunks_mono (budget : Nat) :
    ∀ (xs : List String) (i : Nat) (st : ChunkState),
    ∃ tail, (chunkGo budget i st xs).chunks = st.chunks ++ tail := by
  intro xs
  induction xs with
  | nil => intro i st; exact ⟨[], by simp [chunkGo]⟩
  | cons x xs ih =>
    intro i st
    obtain ⟨tail, htail⟩ := ih (i + 1) (chunkStepAt budget i st x)
    rcases chunkStepAt_chunks budget i st x with h | h
    · exact ⟨tail, by simp only [chunkGo]; rw [htail, h]⟩
    · exact ⟨⟨st.startIdx, i, String.intercalate SEPARATOR st.cur⟩ :: tail,
        by simp only [chunkGo]; rw [htail, h]; simp⟩

theorem chunkGo_no_close (budget : Nat) :
    ∀ (xs : List String) (i : Nat) (cs : List Chunk) (cur : List String) (size s : Nat),
    size + (xs.map String.length).sum ≤ budget →
    chunkGo budget i ⟨cs, cur, size, s⟩ xs =
      ⟨cs, cur ++ xs, size + (xs.map String.length).sum, s⟩ := by
  intro xs
  induction xs with
  | nil => intro i cs cur size s h; simp [chunkGo]
  | cons x xs ih =>
    intro i cs cur size s h
    simp only [List.map_cons, List.sum_cons] at h
    have hlt : ¬ budget < size + x.length := by omega
    have hstep : chunkStepAt budget i ⟨cs, cur, size, s⟩ x =
        ⟨cs, cur ++ [x], size + x.length, s⟩ := by
      unfold chunkStepAt
      rw [if_neg (fun hc => hlt hc.1)]
    simp only [chunkGo, hstep]
    rw [ih (i + 1) cs (cur ++ [x]) (size + x.length) s (by omega)]
    simp [Nat.add_assoc]

theorem chunkGo_inv_upto (budget : Nat) {blocks : List String} :
    ∀ (xs : List String) (i : Nat) (st : ChunkState),
    blocks.drop i = xs ++ blocks.drop (i + xs.length) → ChunkInv blocks i st →
    ChunkInv blocks (i + xs.length) (chunkGo budget i st xs) := by
  intro xs
  induction xs with
  | nil => intro i st _ hinv; simpa [chunkGo] using hinv
  | cons b xs ih =>
    intro i st hdrop hinv
    obtain ⟨htake, hdrop', hlt⟩ := take_drop_of_drop_cons blocks i b _ hdrop
    have harith : i + (b :: xs).length = i + 1 + xs.length := by
      simp only [List.length_cons]; omega
    have hrec := ih (i + 1) (chunkStepAt budget i st b)
      (by rw [hdrop', harith]; rfl) (chunkInv_step hinv htake hlt)
    simp only [chunkGo]
    rw [harith]
    exact hrec

theorem intercalate_singleton (s x : String) : String.intercalate s [x] = x := rfl

theorem c5aux_two_chunks (budget : Nat) (ys : List String) (z : String)
    (hne : ys ≠ []) (hz : 1 ≤ z.length)
    (hsum : ((ys ++ [z]).map String.length).sum = budget + 1) :
    buildChunks budget (ys ++ [z]) =
      [⟨0, ys.length, String.intercalate SEPARATOR ys⟩, ⟨ys.length, ys.length + 1, z⟩] := by
  have hsum' : (ys.map String.length).sum + z.length = budget + 1 := by
    simpa using hsum
  have h1 : chunkGo budget 0 ⟨[], [], 0, 0⟩ ys = ⟨[], ys, (ys.map String.length).sum, 0⟩ := by
    have h := chunkGo_no_close budget ys 0 [] [] 0 0 (by omega)
    simpa using h
  have hstep : chunkStepAt budget ys.length ⟨[], ys, (ys.map String.length).sum, 0⟩ z =
      ⟨[⟨0, ys.length, String.intercalate SEPARATOR ys⟩], [z], z.length, ys.length⟩ := by
    unfold chunkStepAt
    rw [if_pos ⟨show budget < (ys.map String.length).sum + z.length by omega, hne⟩]
    simp
  have hrun : chunkGo budget 0 ⟨[], [], 0, 0⟩ (ys ++ [z]) =
      ⟨[⟨0, ys.length, String.intercalate SEPARATOR ys⟩], [z], z.length, ys.length⟩ := by
    rw [chunkGo_append, h1]
    simp only [Nat.zero_add, chunkGo, hstep]
  simp only [buildChunks]
  rw [hrun]
  simp [intercalate_singleton]

theorem c5aux_singleton (budget : Nat) (b : String) (_hb : budget < b.length) :
    buildChunks budget [b] = [⟨0, 1, b⟩] := by
  simp [buildChunks, chunkGo, chunkStepAt, intercalate_singleton]

theorem oversized_block_alone (budget i : Nat) (blocks : List String) (b : String)
    (hget : blocks[i]? = some b) (hbig : budget < b.length) :
    (⟨i, i + 1, b⟩ : Chunk) ∈ buildChunks budget blocks := by
  obtain ⟨hlt, hgetEl⟩ := List.getElem?_eq_some_iff.mp hget
  have htklen : (blocks.take i).length = i := length_take_of_le (le_of_lt hlt)
  have hdropi : blocks.drop i = b :: blocks.drop (i + 1) := by
    rw [List.drop_eq_getElem_cons hlt, hgetEl]
  have hinv1 : ChunkInv blocks i (chunkGo budget 0 ⟨[], [], 0, 0⟩ (blocks.take i)) := by
    have h := chunkGo_inv_upto budget (blocks.take i) 0 ⟨[], [], 0, 0⟩
      (by rw [List.drop_zero, Nat.zero_add, htklen, List.take_append_drop])
      (by simp [ChunkInv, ChunksGood])
    simpa [htklen] using h
  set st1 := chunkGo budget 0 ⟨[], [], 0, 0⟩ (blocks.take i) with hst1def
  obtain ⟨hstart1, _, hcur1, hsize1, _⟩ := hinv1
  have hst2 : ∃ cs2, chunkStepAt budget i st1 b = ⟨cs2, [b], b.length, i⟩ := by
    unfold chunkStepAt
    by_cases hc : st1.cur = []
    · have hsi : st1.startIdx = i := by
        rw [hc] at hcur1
        have hlen := congrArg List.length hcur1
        simp only [List.length_nil, List.length_drop, htklen] at hlen
        omega
      have hsz : st1.curSize = 0 := by rw [hsize1, hc]; rfl
      rw [if_neg (fun hcond => hcond.2 hc)]
      exact ⟨st1.chunks, by dsimp only; rw [hc, hsi, hsz]; simp⟩
    · rw [if_pos ⟨show budget < st1.curSize + b.length by omega, hc⟩]
      refine ⟨st1.chunks ++ [⟨st1.startIdx, i, String.intercalate SEPARATOR st1.cur⟩], ?_⟩
      simp
  obtain ⟨cs2, hst2⟩ := hst2
  have hrun : chunkGo budget 0 ⟨[], [], 0, 0⟩ blocks =
      chunkGo budget (i + 1) ⟨cs2, [b], b.length, i⟩ (blocks.drop (i + 1)) := by
    conv_lhs => rw [← List.take_append_drop i blocks]
    rw [chunkGo_append, ← hst1def, htklen, Nat.zero_add, hdropi]
    simp only [chunkGo, hst2]
  rcases hrest : blocks.drop (i + 1) with _ | ⟨c, rest2⟩
  · have hlen2 : blocks.length = i + 1 := by
      have := List.drop_eq_nil_iff.mp hrest
      omega
    simp only [buildChunks]
    rw [hrun, hrest]
    simp only [chunkGo]
    rw [if_pos (by simp)]
    simp [hlen2, intercalate_singleton]
  · have hstep3 : chunkStepAt budget (i + 1) ⟨cs2, [b], b.length, i⟩ c =
        ⟨cs2 ++ [⟨i, i + 1, b⟩], [c], c.length, i + 1⟩ := by
      unfold chunkStepAt
      rw [if_pos ⟨show budget < b.length + c.length by omega, by simp⟩]
      simp [intercalate_singleton]
    have hmem : (⟨i, i + 1, b⟩ : Chunk) ∈
        (chunkGo budget 0 ⟨[], [], 0, 0⟩ blocks).chunks := by
      rw [hrun, hrest]
      simp only [chunkGo, hstep3]
      obtain ⟨tail, htail⟩ :=
        chunkGo_chunks_mono budget rest2 (i + 1 + 1)
          ⟨cs2 ++ [⟨i, i + 1, b⟩], [c], c.length, i + 1⟩
      rw [htail]
      simp
    simp only [buildChunks]
    by_cases hne : (chunkGo budget 0 ⟨[], [], 0, 0⟩ blocks).cur ≠ []
    · rw [if_pos hne]; exact List.mem_append_left _ hmem
    · rw [if_neg hne]; exact hmem

/-- C5: the chunker closes a chunk exactly when adding the next block would
push the accumulated character count past the budget. First conjunct: a body
whose block lengths sum to exactly `budget + 1` (final block non-empty)
produces exactly two chunks, split at the final block boundary — not one and
not three. Second conjunct: a single block longer than the budget forms a
chunk by itself. Third conjunct: in any block list, a block longer than the
budget always receives its own chunk `[i, i+1)` holding exactly that block's
markup — blocks are never split mid-content. -/
theorem c5_chunk_boundary_and_oversized :
    (∀ (budget : Nat) (ys : List String) (z : String),
      ys ≠ [] → 1 ≤ z.length →
      ((ys ++ [z]).map String.length).sum = budget + 1 →
      buildChunks budget (ys ++ [z]) =
        [⟨0, ys.length, String.intercalate SEPARATOR ys⟩,
         ⟨ys.length, ys.length + 1, z⟩]) ∧
    (∀ (budget : Nat) (b : String), budget < b.length →
      buildChunks budget [b] = [⟨0, 1, b⟩]) ∧
    (∀ (budget i : Nat) (blocks : List String) (b : String),
      blocks[i]? = some b → budget < b.length →
      (⟨i, i + 1, b⟩ : Chunk) ∈ buildChunks budget blocks) :=
  ⟨c5aux_two_chunks, c5aux_singleton, oversized_block_alone⟩

/-- Witness for C5 at concrete inputs: blocks of lengths 2,2,1 with budget 4
split into exactly the two chunks `[0,2)` and `[2,3)`, and a single 6-character
block with budget 4 forms one chunk. -/
theorem c5_witness :
    buildChunks 4 (["ab", "cd"] ++ ["x"]) =
      [⟨0, 2, String.intercalate SEPARATOR ["ab", "cd"]⟩, ⟨2, 3, "x"⟩] ∧
    buildChunks 4 ["abcdef"] = [⟨0, 1, "abcdef"⟩] :=
  ⟨c5_chunk_boundary_and_oversized.1 4 ["ab", "cd"] "x" (by decide) (by decide) (by decide),
   c5_chunk_boundary_and_oversized.2.1 4 "abcdef" (by decide)⟩

theorem recoverChunk_length {blocks : List String} {c : Chunk} (translated : String)
    (h1 : c.start ≤ c.stop) (h2 : c.stop ≤ blocks.length) :
    (recoverChunk blocks c translated).length = c.stop - c.start := by
  unfold recoverChunk
  by_cases he : translated = ""
  · rw [if_pos he]
    simp only [sliceBlocks, List.length_drop]
    rw [length_take_of_le h2]
  · rw [if_neg he]
    by_cases heq : (splitParts translated).length = c.stop - c.start
    · simp [heq]
    · rw [if_neg heq]
      by_cases hge : c.stop - c.start ≤ (splitParts translated).length
      · rw [if_pos hge]
        simp only [List.length_map, List.length_take]
        omega
      · rw [if_neg hge]
        simp only [List.length_append, List.length_map, List.length_replicate]
        omega

theorem translateFold_length {blocks : List String} (tr : String → String) :
    ∀ (cs : List Chunk) (lo hi : Nat) (acc : List String),
    ChunksGood blocks lo cs hi →
    (cs.foldl (fun acc c => acc ++ recoverChunk blocks c (tr c.combined)) acc).length =
      acc.length + (hi - lo) := by
  intro cs
  induction cs with
  | nil =>
    intro lo hi acc h
    simp only [ChunksGood] at h
    simp [h]
  | cons c cs ih =>
    intro lo hi acc h
    obtain ⟨hs, hle, hlen, _, hrest⟩ := h
    have hstop : c.stop ≤ hi := chunksGood_le hrest
    simp only [List.foldl_cons]
    rw [ih c.stop hi _ hrest]
    simp only [List.length_append]
    rw [recoverChunk_length _ (hs ▸ hle) hlen, hs]
    omega

theorem translateBlocks_length (tr : String → String) (blocks : List String) :
    (translateBlocks tr blocks).length = blocks.length := by
  unfold translateBlocks
  rw [translateFold_length tr _ 0 blocks.length [] (buildChunks_good CHUNK_BUDGET blocks)]
  simp

/-- C6: the residual-language detector strips markup tags, counts codepoints
in the source script's Unicode ranges, and returns `true` if and only if that
count exceeds 5 — `true` when the tag-stripped text contains 6 or more
source-script characters, `false` when it contains 5 or fewer. -/
theorem c6_residual_detector_threshold (s : String) :
    hasJapanese s = true ↔ 6 ≤ countJapanese (stripTags s) := by
  simp only [hasJapanese, decide_eq_true_eq]
  omega

/-- C4: for every translation-service behaviour `tr` and every block list,
reassembly produces exactly one output segment per translatable block (output
block count equals input block count, via empty padding, truncation of excess
segments, or keeping the chunk's original blocks on failure), and after the
insertion step every block position whose pre-translation markup is non-empty
still carries non-empty content (an empty segment falls back to the block's
pre-translation markup) — no block is silently dropped. -/
theorem c4_reassembly_preserves_block_count (tr : String → String) (blocks : List String) :
    (translateBlocks tr blocks).length = blocks.length ∧
    (finalBlockContents tr blocks).length = blocks.length ∧
    (∀ i, i < blocks.length → blocks.getD i "" ≠ "" →
      (finalBlockContents tr blocks).getD i "" ≠ "") := by
  refine ⟨translateBlocks_length tr blocks, by simp [finalBlockContents], ?_⟩
  intro i hi hne
  have hval : (finalBlockContents tr blocks).getD i "" =
      (let t := (translateBlocks tr blocks).getD i ""
       if t ≠ "" then t else blocks.getD i "") := by
    unfold finalBlockContents
    rw [List.getD_eq_getElem?_getD, List.getElem?_map, List.getElem?_range hi]
    rfl
  rw [hval]
  simp only [List.getD_eq_getElem?_getD] at hne ⊢
  by_cases ht : (translateBlocks tr blocks)[i]?.getD "" = ""
  · simpa [ht] using hne
  · simp [ht]

/-- Witness for C4: with a service that fails on every chunk, two blocks come
back as two blocks and position 0 keeps non-empty content. -/
theorem c4_witness :
    (translateBlocks (fun _ => "") ["abc", "de"]).length = (["abc", "de"] : List String).length ∧
    (finalBlockContents (fun _ => "") ["abc", "de"]).getD 0 "" ≠ "" :=
  ⟨(c4_reassembly_preserves_block_count (fun _ => "") ["abc", "de"]).1,
   (c4_reassembly_preserves_block_count (fun _ => "") ["abc", "de"]).2.2 0
     (by decide) (by decide)⟩

/-- C9: body translation fails as a whole exactly when fewer than 30% of the
translatable blocks end up with non-empty translated content after all chunk
calls and recovery padding (`none` embeds the code's empty-string failure
return), and an article whose body translation failed is skipped by
`process_article` with the ledger unchanged — a mostly-failed translation
never reaches publication. -/
theorem c9_thirty_percent_validation :
    (∀ (tr : String → String) (blocks : List String),
      translateAndEditBody tr blocks = none ↔
        10 * ((translateBlocks tr blocks).filter (fun b => b.trim ≠ "")).length <
          3 * blocks.length) ∧
    (∀ (force : Bool) (o : ProcOracles) (link : String) (posted : List String),
      o.wpDup = false → o.contentKo = "" →
      processArticle force o link posted = (false, posted)) := by
  constructor
  · intro tr blocks
    unfold translateAndEditBody
    by_cases h : 10 * ((translateBlocks tr blocks).filter (fun b => b.trim ≠ "")).length <
        3 * blocks.length
    · simp [h]
    · simp [h]
  · intro force o link posted hwp hco
    rcases o with ⟨dup, fetched, t, c, pub⟩
    dsimp only at hwp hco
    subst hwp hco
    unfold processArticle
    rw [if_neg (by simp)]
    cases fetched with
    | none => rfl
    | some v => by_cases ht : t = "" <;> simp [ht]

/-- Witness for C9: an article whose body translation came back empty is
skipped and the ledger is unchanged. -/
theorem c9_witness :
    (translateAndEditBody (fun _ => "x") [] = none ↔
      10 * ((translateBlocks (fun _ => "x") []).filter (fun b => b.trim ≠ "")).length <
        3 * ([] : List String).length) ∧
    processArticle true ⟨false, some "h", "t", "", true⟩ "u" ["w"] = (false, ["w"]) :=
  ⟨c9_thirty_percent_validation.1 (fun _ => "x") [],
   c9_thirty_percent_validation.2 true ⟨false, some "h", "t", "", true⟩ "u" ["w"] rfl rfl⟩

/-- Counterexample to C2: "ああああああ" (six hiragana characters) makes the
residual detector fire; the single repair pass — here a cleanup oracle that
returns its input unchanged — leaves residual source script; the
body-translation step returns that result, but `process_article` then returns
`False`: the article is skipped, not published, refuting "published anyway
with a warning, and is never skipped". -/
theorem c2_counterexample :
    hasJapanese "ああああああ" = true ∧
    applyResidualRepair (fun x => x) "ああああああ" = "ああああああ" ∧
    processArticle false
      ⟨false, some "html", "title", applyResidualRepair (fun x => x) "ああああああ", true⟩
      "url" [] = (false, []) :=
  ⟨by decide, by decide, by decide⟩

/-- C2 amended: after the residual detector fires on the reassembled body,
exactly one repair pass is issued and its result is returned by the
body-translation step regardless of outcome; but `process_article` then runs
a final residual-language safety net, and an article whose content still
contains more than the threshold of source-script text after that single
repair is skipped — neither published nor recorded in the ledger. -/
theorem c2_amended_single_repair_then_skip
    (cleanup : String → String) (s : String) (o : ProcOracles)
    (link : String) (posted : List String)
    (hfired : hasJapanese s = true)
    (hcontent : o.contentKo = applyResidualRepair cleanup s)
    (hwp : o.wpDup = false) (hfetch : o.fetched ≠ none) (htitle : o.titleKo ≠ "")
    (hresid : hasJapanese (cleanup s) = true) :
    applyResidualRepair cleanup s = cleanup s ∧
    processArticle false o link posted = (false, posted) := by
  have hrep : applyResidualRepair cleanup s = cleanup s := by
    unfold applyResidualRepair
    rw [if_pos hfired]
  refine ⟨hrep, ?_⟩
  rcases o with ⟨dup, fetched, t, c, pub⟩
  dsimp only at hcontent hwp hfetch htitle
  subst hwp hcontent
  unfold processArticle
  rw [if_neg (by simp)]
  cases fetched with
  | none => exact absurd rfl hfetch
  | some v =>
    dsimp only
    rw [if_neg htitle]
    by_cases hc0 : applyResidualRepair cleanup s = ""
    · simp [hc0]
    · rw [if_neg hc0, if_pos (by rw [hrep]; exact hresid)]

/-- Witness for the amended C2 at concrete inputs. -/
theorem c2_witness :
    applyResidualRepair (fun x => x) "かかかかかか" = (fun x => x) "かかかかかか" ∧
    processArticle false
      ⟨false, some "h", "t", applyResidualRepair (fun x => x) "かかかかかか", true⟩
      "u" ["v"] = (false, ["v"]) :=
  c2_amended_single_repair_then_skip (fun x => x) "かかかかかか"
    ⟨false, some "h", "t", applyResidualRepair (fun x => x) "かかかかかか", true⟩
    "u" ["v"] (by decide) rfl rfl (by decide) (by decide) (by decide)

/-- Counterexample to C3: when the secondary WordPress duplicate pre-check
reports a match (`wpDup = true`), `process_article` appends the URL to the
ledger even though no publish call was made this run (`publishOk = false`,
nothing fetched) — so the ledger is not appended only after a publish call
confirms success. -/
theorem c3_counterexample :
    processArticle false ⟨true, none, "", "", false⟩ "u" [] = (false, ["u"]) := by
  decide

/-- C3 amended: the ledger is appended (always with the link as the new last
element, only when the force flag is unset) in exactly two cases — after the
publish call confirms success, or when the secondary WordPress duplicate
check finds the URL already published and it is recorded locally without
republishing; candidate selection consults the ledger before any extraction
or translation work, so with the force flag unset no selected candidate's
link is in the ledger; and with the force flag set the ledger check is
bypassed entirely (selection is as if the ledger were empty). -/
theorem c3_amended_ledger_lifecycle :
    (∀ (force : Bool) (o : ProcOracles) (link : String) (posted : List String),
      (processArticle force o link posted).2 = posted ∨
      ((processArticle force o link posted).2 = posted ++ [link] ∧ force = false ∧
        ((o.wpDup = true ∧ (processArticle force o link posted).1 = false) ∨
         (o.publishOk = true ∧ (processArticle force o link posted).1 = true)))) ∧
    (∀ (posted : List String) (entries : List FeedEntry) (e : FeedEntry),
      e ∈ fetchRssFeed false posted entries → e.link ∉ posted) ∧
    (∀ (posted : List String) (entries : List FeedEntry),
      fetchRssFeed true posted entries = fetchRssFeed true [] entries) := by
  refine ⟨?_, ?_, ?_⟩
  · intro force o link posted
    rcases o with ⟨dup, fetched, t, c, pub⟩
    unfold processArticle
    dsimp only
    by_cases h1 : force = false ∧ dup = true
    · rw [if_pos h1]
      by_cases h2 : link ∈ posted
      · left; simp [h2]
      · right; simp [h2, h1.1, h1.2]
    · rw [if_neg h1]
      cases fetched with
      | none => left; rfl
      | some v =>
        dsimp only
        by_cases ht : t = ""
        · left; simp [ht]
        · rw [if_neg ht]
          by_cases hc : c = ""
          · left; simp [hc]
          · rw [if_neg hc]
            by_cases hj : hasJapanese c = true
            · left; simp [hj]
            · rw [if_neg hj]
              by_cases hp : pub = true
              · rw [if_pos hp]
                by_cases hf : force = false
                · right; simp [hf, hp]
                · left; simp [hf]
              · left; simp [hp]
  · intro posted entries e he hmem
    unfold fetchRssFeed at he
    have h2 : e ∈ (entries.filter
        (fun e => ¬(false = false ∧ e.link ∈ posted))).mergeSort dateDesc :=
      List.take_subset _ _ he
    have h3 := (List.mergeSort_perm _ dateDesc).mem_iff.mp h2
    rw [List.mem_filter] at h3
    have h4 := h3.2
    simp only [decide_eq_true_eq] at h4
    exact h4 ⟨by simp, hmem⟩
  · intro posted entries
    unfold fetchRssFeed
    simp

/-- Witness for the amended C3: a candidate selected from a one-entry feed
against the ledger `["a"]` has a link not in the ledger. -/
theorem c3_witness :
    (⟨"t", "b", 3⟩ : FeedEntry).link ∉ ["a"] :=
  c3_amended_ledger_lifecycle.2.1 ["a"] [⟨"t", "b", 3⟩] ⟨"t", "b", 3⟩
    (by simp [fetchRssFeed, DAILY_LIMIT])

/-- Counterexample to C7: article 1's translation client exhausts all retry
attempts (every attempt yields nothing, so `_call_api` returns the failure
value and the title translation is empty); the claim says no further article
in the batch is processed or recorded, yet article 2 is still processed,
published and recorded in the ledger during the same run. -/
theorem c7_counterexample :
    callApi (fun _ => "") = "" ∧
    runBatch false
      [(⟨false, some "h1", callApi (fun _ => ""), "c1", true⟩, "u1"),
       (⟨false, some "h2", "t2", "c2", true⟩, "u2")] [] = (1, ["u2"]) :=
  ⟨by decide, by decide⟩

/-- C7 amended: when every attempt of the bounded retry loop fails,
`_call_api` returns the empty failure value; there is no process-wide
throttled flag — an article that fails leaves the ledger untouched and the
rest of the batch is processed exactly as if the failed article were absent,
so later articles can still be processed and recorded in the same run. -/
theorem c7_amended_no_throttle_flag :
    (∀ (attempts : Nat → String), (∀ n, attempts n = "") → callApi attempts = "") ∧
    (∀ (force : Bool) (o : ProcOracles) (link : String) (posted : List String)
      (rest : List (ProcOracles × String)),
      processArticle force o link posted = (false, posted) →
      runBatch force ((o, link) :: rest) posted = runBatch force rest posted) := by
  constructor
  · intro attempts h
    have hall : ∀ (fuel i : Nat), callApiLoop attempts i fuel = "" := by
      intro fuel
      induction fuel with
      | zero => intro i; rfl
      | succ n ih => intro i; simp [callApiLoop, h, ih]
    exact hall MAX_RETRIES 0
  · intro force o link posted rest h
    simp [runBatch, h]

/-- Witness for the amended C7: a failing article leaves the batch fold
unchanged, and an all-failures attempt oracle yields the failure value. -/
theorem c7_witness :
    callApi (fun _ => "") = "" ∧
    runBatch false [(⟨false, some "h", "", "c", true⟩, "u1")] ["p"] =
      runBatch false [] ["p"] :=
  ⟨c7_amended_no_throttle_flag.1 (fun _ => "") (fun _ => rfl),
   c7_amended_no_throttle_flag.2 false ⟨false, some "h", "", "c", true⟩ "u1" ["p"] []
     (by decide)⟩

/-- C10: every run selects at most `DAILY_LIMIT = 10` feed entries; the
selection is sorted newest-first by publication date; every selected entry
comes from the feed and is not in the ledger unless forced; and every
unposted entry left unselected is no newer than any selected one — the
selection takes the newest unposted entries, however many unposted entries
the feed contains. -/
theorem c10_daily_limit_newest_first (force : Bool) (posted : List String)
    (entries : List FeedEntry) :
    (fetchRssFeed force posted entries).length ≤ DAILY_LIMIT ∧
    (fetchRssFeed force posted entries).Pairwise (fun a b => b.date ≤ a.date) ∧
    (∀ e ∈ fetchRssFeed force posted entries,
      e ∈ entries ∧ ¬(force = false ∧ e.link ∈ posted)) ∧
    (∀ x ∈ fetchRssFeed force posted entries,
      ∀ y ∈ entries.filter (fun e => ¬(force = false ∧ e.link ∈ posted)),
        y ∉ fetchRssFeed force posted entries → y.date ≤ x.date) := by
  have htrans : ∀ (a b c : FeedEntry), dateDesc a b = true → dateDesc b c = true →
      dateDesc a c = true := by
    intro a b c hab hbc
    simp only [dateDesc, decide_eq_true_eq] at *
    omega
  have htotal : ∀ (a b : FeedEntry), (dateDesc a b || dateDesc b a) = true := by
    intro a b
    simp only [dateDesc, Bool.or_eq_true, decide_eq_true_eq]
    omega
  have hsorted := List.sorted_mergeSort htrans htotal
    (entries.filter (fun e => ¬(force = false ∧ e.link ∈ posted)))
  have hperm := List.mergeSort_perm
    (entries.filter (fun e => ¬(force = false ∧ e.link ∈ posted))) dateDesc
  refine ⟨?_, ?_, ?_, ?_⟩
  · simp only [fetchRssFeed, List.length_take]
    omega
  · refine List.Pairwise.imp ?_ (List.Pairwise.sublist (List.take_sublist _ _) hsorted)
    intro a b hab
    simpa [dateDesc] using hab
  · intro e he
    have h2 := hperm.mem_iff.mp (List.take_subset _ _ he)
    rw [List.mem_filter] at h2
    have h3 := h2.2
    simp only [decide_eq_true_eq] at h3
    exact ⟨h2.1, h3⟩
  · intro x hx y hy hynot
    have hysort := hperm.mem_iff.mpr hy
    rw [← List.take_append_drop DAILY_LIMIT ((entries.filter
      (fun e => ¬(force = false ∧ e.link ∈ posted))).mergeSort dateDesc)] at hysort
    rcases List.mem_append.mp hysort with hyin | hydrop
    · exact absurd hyin hynot
    · have hpw := hsorted
      rw [← List.take_append_drop DAILY_LIMIT ((entries.filter
        (fun e => ¬(force = false ∧ e.link ∈ posted))).mergeSort dateDesc)] at hpw
      have hrel := (List.pairwise_append.mp hpw).2.2 x hx y hydrop
      simpa [dateDesc] using hrel

/-- Witness for C10 on a one-entry feed with an empty ledger. -/
theorem c10_witness :
    (fetchRssFeed false [] [⟨"t", "a", 5⟩]).length ≤ DAILY_LIMIT ∧
    ((⟨"t", "a", 5⟩ : FeedEntry) ∈ [(⟨"t", "a", 5⟩ : FeedEntry)] ∧
      ¬(false = false ∧ (⟨"t", "a", 5⟩ : FeedEntry).link ∈ ([] : List String))) :=
  ⟨(c10_daily_limit_newest_first false [] [⟨"t", "a", 5⟩]).1,
   (c10_daily_limit_newest_first false [] [⟨"t", "a", 5⟩]).2.2.1 ⟨"t", "a", 5⟩
     (by simp [fetchRssFeed, DAILY_LIMIT])⟩
